import Mathlib

/-!
The class-relationship resolver of kapigraph (`cmd/root.go`).

A shallow embedding of `descendTree` and of the part of `Run` that selects the
targets, merges the two universes and drives the resolver, followed by the
properties of the resolver.

Go maps are finite maps with unique keys and no iteration order: they are
embedded as `Finmap`.  A Go `map[string]interface{}` used as a set is a
`Finset String`.  The recursion of `descendTree` is bounded by a fuel argument
(the depth of the call stack the program may use).
-/

namespace Kapigraph

/-- The type `map[string][]string`: entity name to its declared-parents list. -/
abbrev Universe := Finmap (fun _ : String => List String)

/-- The type `map[string]map[string]interface{}`: entity name to the set of its
direct parents. -/
abbrev Relationships := Finmap (fun _ : String => Finset String)

/-- The result of a call: the fuel ran out before it returned, or it returned a non-nil
`error`, or it returned a value together with a nil `error`. -/
inductive Outcome (α : Type) where
  | outOfFuel : Outcome α
  | failed (err : String) : Outcome α
  | returned (value : α) : Outcome α

instance {α : Type} [DecidableEq α] : DecidableEq (Outcome α) := fun a b =>
  match a, b with
  | .outOfFuel, .outOfFuel => isTrue rfl
  | .outOfFuel, .failed _ => isFalse (fun h => Outcome.noConfusion h)
  | .outOfFuel, .returned _ => isFalse (fun h => Outcome.noConfusion h)
  | .failed _, .outOfFuel => isFalse (fun h => Outcome.noConfusion h)
  | .failed e, .failed e' =>
    if h : e = e' then isTrue (congrArg Outcome.failed h)
    else isFalse (fun h' => h (Outcome.failed.inj h'))
  | .failed _, .returned _ => isFalse (fun h => Outcome.noConfusion h)
  | .returned _, .outOfFuel => isFalse (fun h => Outcome.noConfusion h)
  | .returned _, .failed _ => isFalse (fun h => Outcome.noConfusion h)
  | .returned v, .returned v' =>
    if h : v = v' then isTrue (congrArg Outcome.returned h)
    else isFalse (fun h' => h (Outcome.returned.inj h'))

/-- The Go expression `classes[class]`: the zero value (the nil slice) for a missing key. -/
def classesAt (classes : Universe) (cls : String) : List String :=
  (classes.lookup cls).getD []

/-- The call `maps.Copy(dst, src)`: every entry of `src` is written into `dst`. -/
def mapsCopy {β : Type} (dst src : Finmap (fun _ : String => β)) : Finmap (fun _ : String => β) :=
  src ∪ dst

/-- The loop `for _, cls := range descendantClasses` of `descendTree` (lines 133-142).
`recurse` is the recursive call `descendTree(classes, relationships, cls)` on the
current mapping.  The map `relationships` is shared by reference, so after the
recursive call it holds what the call returned as `mergeable`, and `maps.Copy`
copies `mergeable` into that same map. -/
def descendLoop (recurse : Relationships → String → Outcome Relationships) :
    List String → Relationships → Finset String → Outcome (Relationships × Finset String)
  | [], relationships, descendants => .returned (relationships, descendants)
  | cls :: rest, relationships, descendants =>
    let descendants := insert cls descendants
    match relationships.lookup cls with
    | some _ => descendLoop recurse rest relationships descendants
    | none =>
      match recurse relationships cls with
      | .outOfFuel => .outOfFuel
      | .failed err => .failed err
      | .returned mergeable =>
        descendLoop recurse rest (mapsCopy mergeable mergeable) descendants

/-- The function `descendTree` (lines 130-145), with the depth of the recursion bounded by
the first argument. -/
def descendTree : Nat → Universe → Relationships → String → Outcome Relationships
  | 0, _, _, _ => .outOfFuel
  | fuel + 1, classes, relationships, cls =>
    match descendLoop (descendTree fuel classes) (classesAt classes cls) relationships ∅ with
    | .outOfFuel => .outOfFuel
    | .failed err => .failed err
    | .returned (relationships, descendants) =>
      .returned (relationships.insert cls descendants)

/-- The target selection of `Run` (lines 66-75). -/
def selectTargets (target : String) (targets : Universe) : Except String Universe :=
  if target ≠ "" then
    match targets.lookup target with
    | none => .error ("target not found: " ++ target)
    | some contents => .ok (Finmap.singleton target contents)
  else .ok targets

/-- The merged universe `allClasses` of `Run` (lines 77-79). -/
def mergeUniverses (classes targets : Universe) : Universe :=
  mapsCopy (mapsCopy ∅ classes) targets

/-- The driver loop `for target := range targets` of `Run` (lines 83-89); `order` is the
order in which the map iteration yields the keys of `targets`. -/
def driverLoop (fuel : Nat) (allClasses : Universe) :
    List String → Relationships → Outcome Relationships
  | [], relationships => .returned relationships
  | target :: rest, relationships =>
    match descendTree fuel allClasses relationships target with
    | .outOfFuel => .outOfFuel
    | .failed err => .failed err
    | .returned mergeable => driverLoop fuel allClasses rest (mapsCopy mergeable mergeable)

/-- The edges written by the emitting loop of `Run` (lines 113-117): one edge per entity and
direct parent. The order of the lines of the output follows the map iteration and is not
modelled. -/
def emitEdges (relationships : Relationships) : Finset (String × String) :=
  relationships.keys.biUnion fun node =>
    ((relationships.lookup node).getD ∅).image fun descendant => (node, descendant)

/-- An iteration order of a Go map: every key once. -/
def IsIterationOrder (order : List String) (targets : Universe) : Prop :=
  order.Nodup ∧ ∀ k, k ∈ order ↔ k ∈ targets

/-- The function `Run` from the two loaded universes on (lines 66-117): the selection of the
targets, the merge, the driver loop on the empty mapping and the emitted edges. `order`
is the order in which the map iteration yields the selected targets. -/
def Run (fuel : Nat) (target : String) (classes targets : Universe)
    (order : List String) : Outcome (Finset (String × String)) :=
  match selectTargets target targets with
  | .error err => .failed err
  | .ok targets =>
    match driverLoop fuel (mergeUniverses classes targets) order ∅ with
    | .outOfFuel => .outOfFuel
    | .failed err => .failed err
    | .returned relationships => .returned (emitEdges relationships)

/-- A parent-reference hop: from an entity to a name of its declared-parents list. -/
def Edge (u : Universe) (a b : String) : Prop := b ∈ classesAt u a

instance (u : Universe) (a b : String) : Decidable (Edge u a b) :=
  inferInstanceAs (Decidable (b ∈ classesAt u a))

/-- Reachability by zero or more parent-reference hops. -/
def Reach (u : Universe) : String → String → Prop := Relation.ReflTransGen (Edge u)

/-- The set of the names of the declared-parents list of an entity, empty for an entity
that is not a key of the universe. -/
def directParents (u : Universe) (k : String) : Finset String := (classesAt u k).toFinset

/-- A mapping that holds, at each of its keys, the set of the direct parents of the key, all
of them keys themselves. -/
def Good (u : Universe) (m : Relationships) : Prop :=
  ∀ k s, m.lookup k = some s → s = directParents u k ∧ ∀ p ∈ classesAt u k, p ∈ m

/-- What a returning call `descendTree(u, m, r)` guarantees of its result `res`. -/
structure Post (u : Universe) (m : Relationships) (r : String) (res : Relationships) : Prop where
  keys : ∀ k, k ∈ m → k ∈ res
  old : ∀ k, k ∈ m → k ≠ r → res.lookup k = m.lookup k
  root : res.lookup r = some (directParents u r)
  rootParents : ∀ p ∈ classesAt u r, p ∈ res
  fresh : ∀ k, k ∈ res → k ∉ m →
    res.lookup k = some (directParents u k) ∧ (∀ p ∈ classesAt u k, p ∈ res) ∧ Reach u r k

/-- The universe of the end-to-end example: classes and targets merged. -/
def exampleUniverse : Universe :=
  Finmap.insert "app" ["base"] (Finmap.insert "base" [] (Finmap.insert "cluster1" ["app"] ∅))

/-- The relationship mapping expected in the end-to-end example. -/
def exampleResult : Relationships :=
  Finmap.insert "cluster1" {"app"} (Finmap.insert "app" {"base"} (Finmap.singleton "base" ∅))

/-- A universe with one entity whose only declared parent is not a key of the universe. -/
def danglingUniverse : Universe := Finmap.singleton "e" ["p"]

/-- The states of the relationship mapping in a resolution pass: the empty mapping, and the
mapping left by a `descendTree` call, nested or not, that returns from such a state. -/
inductive PassState (u : Universe) : Relationships → Prop where
  | empty : PassState u ∅
  | call (m res : Relationships) (fuel : Nat) (r : String) :
      PassState u m → descendTree fuel u m r = .returned res → PassState u res

/-- The relationship mapping together with the record of the assignments
`relationships[class] = descendants` made so far, oldest first. The record is not a
variable of the program; it is kept to count the assignments. -/
abbrev Traced := Relationships × List String

/-- The value of an outcome changed by a function. -/
def Outcome.map {α β : Type} (f : α → β) : Outcome α → Outcome β
  | .outOfFuel => .outOfFuel
  | .failed err => .failed err
  | .returned value => .returned (f value)

/-- The loop of `descendTree` (lines 133-142) on a mapping with its record of assignments. -/
def descendLoopLog (recurse : Traced → String → Outcome Traced) :
    List String → Traced → Finset String → Outcome (Traced × Finset String)
  | [], st, descendants => .returned (st, descendants)
  | cls :: rest, st, descendants =>
    let descendants := insert cls descendants
    match st.1.lookup cls with
    | some _ => descendLoopLog recurse rest st descendants
    | none =>
      match recurse st cls with
      | .outOfFuel => .outOfFuel
      | .failed err => .failed err
      | .returned mergeable =>
        descendLoopLog recurse rest (mapsCopy mergeable.1 mergeable.1, mergeable.2) descendants

/-- The function `descendTree` (lines 130-145) on a mapping with its record of assignments:
the assignment of line 143 is appended to the record. -/
def descendTreeLog : Nat → Universe → Traced → String → Outcome Traced
  | 0, _, _, _ => .outOfFuel
  | fuel + 1, classes, st, cls =>
    match descendLoopLog (descendTreeLog fuel classes) (classesAt classes cls) st ∅ with
    | .outOfFuel => .outOfFuel
    | .failed err => .failed err
    | .returned (st, descendants) =>
      .returned (st.1.insert cls descendants, st.2 ++ [cls])

/-- The driver loop of `Run` (lines 83-89) on a mapping with its record of assignments. -/
def driverLoopLog (fuel : Nat) (allClasses : Universe) :
    List String → Traced → Outcome Traced
  | [], st => .returned st
  | target :: rest, st =>
    match descendTreeLog fuel allClasses st target with
    | .outOfFuel => .outOfFuel
    | .failed err => .failed err
    | .returned mergeable =>
      driverLoopLog fuel allClasses rest (mapsCopy mergeable.1 mergeable.1, mergeable.2)

/-- The class universe of the end-to-end example. -/
def exampleClasses : Universe := Finmap.insert "app" ["base"] (Finmap.insert "base" [] ∅)

/-- The target universe of the end-to-end example. -/
def exampleTargets : Universe := Finmap.insert "cluster1" ["app"] ∅

/-- Two targets, one of them a declared parent of the other. -/
def sharedTargets : Universe := Finmap.insert "A" [] (Finmap.insert "B" ["A"] ∅)

/-- No cycle of parent references is reachable from the root. -/
def AcyclicFrom (u : Universe) (r : String) : Prop :=
  ∀ x, Reach u r x → ¬ Relation.TransGen (Edge u) x x

/-- A parent-reference hop to a name that is not a key of the mapping. -/
def FreshEdge (u : Universe) (m : Relationships) (a b : String) : Prop :=
  Edge u a b ∧ b ∉ m

/-- A cycle of parent references none of whose members is a key of the mapping is reachable
from the root along names that are not keys of the mapping. -/
def FreshCycleFrom (u : Universe) (m : Relationships) (r : String) : Prop :=
  ∃ c, Relation.ReflTransGen (FreshEdge u m) r c ∧ Relation.TransGen (FreshEdge u m) c c

/-- The universe in which `A` declares itself as its parent. -/
def selfLoopUniverse : Universe := Finmap.singleton "A" ["A"]

/-! ## The resolver: what a returning call guarantees -/

theorem mapsCopy_self {β : Type} (m : Finmap (fun _ : String => β)) : mapsCopy m m = m := by
  apply Finmap.ext_lookup
  intro x
  unfold mapsCopy
  by_cases hx : x ∈ m
  · exact Finmap.lookup_union_left hx
  · exact Finmap.lookup_union_right hx

theorem descendLoop_post (u : Universe) (recurse : Relationships → String → Outcome Relationships)
    (hrec : ∀ m cls res, m.lookup cls = none → recurse m cls = .returned res → Post u m cls res) :
    ∀ (l : List String) (m : Relationships) (acc : Finset String) (res : Relationships)
      (acc' : Finset String),
      descendLoop recurse l m acc = .returned (res, acc') →
      acc' = acc ∪ l.toFinset ∧
      (∀ k, k ∈ m → k ∈ res ∧ res.lookup k = m.lookup k) ∧
      (∀ p ∈ l, p ∈ res) ∧
      (∀ k, k ∈ res → k ∉ m →
        res.lookup k = some (directParents u k) ∧ (∀ p ∈ classesAt u k, p ∈ res) ∧
          ∃ p ∈ l, Reach u p k) := by
  intro l
  induction l with
  | nil =>
    intro m acc res acc' h
    simp only [descendLoop, Outcome.returned.injEq, Prod.mk.injEq] at h
    obtain ⟨rfl, rfl⟩ := h
    refine ⟨by simp, fun k hk => ⟨hk, rfl⟩, by simp, fun k hk hk' => absurd hk hk'⟩
  | cons cls rest ih =>
    intro m acc res acc' h
    rw [descendLoop] at h
    cases hl : m.lookup cls with
    | some s =>
      rw [hl] at h
      obtain ⟨hacc, hold, hall, hnew⟩ := ih m _ res acc' h
      have hcls : cls ∈ m := Finmap.mem_of_lookup_eq_some hl
      refine ⟨?_, hold, ?_, ?_⟩
      · rw [hacc]; ext x; simp
      · intro p hp
        rcases List.mem_cons.mp hp with rfl | hp
        · exact (hold _ hcls).1
        · exact hall p hp
      · intro k hk hk'
        obtain ⟨h1, h2, p, hp, h3⟩ := hnew k hk hk'
        exact ⟨h1, h2, p, List.mem_cons_of_mem _ hp, h3⟩
    | none =>
      rw [hl] at h
      cases hr : recurse m cls with
      | outOfFuel => rw [hr] at h; cases h
      | failed err => rw [hr] at h; cases h
      | returned m1 =>
        rw [hr] at h
        simp only [mapsCopy_self] at h
        have hpost := hrec m cls m1 hl hr
        obtain ⟨hacc, hold, hall, hnew⟩ := ih m1 _ res acc' h
        have hcls : cls ∉ m := Finmap.lookup_eq_none.mp hl
        have hcls1 : cls ∈ m1 := Finmap.mem_of_lookup_eq_some hpost.root
        refine ⟨?_, ?_, ?_, ?_⟩
        · rw [hacc]; ext x; simp
        · intro k hk
          have hne : k ≠ cls := fun e => hcls (e ▸ hk)
          have h1 := hold k (hpost.keys k hk)
          exact ⟨h1.1, by rw [h1.2, hpost.old k hk hne]⟩
        · intro p hp
          rcases List.mem_cons.mp hp with rfl | hp
          · exact (hold _ hcls1).1
          · exact hall p hp
        · intro k hk hk'
          by_cases hk1 : k ∈ m1
          · obtain ⟨h1, h2, h3⟩ := hpost.fresh k hk1 hk'
            refine ⟨by rw [(hold k hk1).2, h1], fun p hp => (hold p (h2 p hp)).1,
              cls, List.mem_cons_self _ _, h3⟩
          · obtain ⟨h1, h2, p, hp, h3⟩ := hnew k hk hk1
            exact ⟨h1, h2, p, List.mem_cons_of_mem _ hp, h3⟩

theorem descendTree_post (u : Universe) :
    ∀ (fuel : Nat) (m : Relationships) (r : String) (res : Relationships),
      descendTree fuel u m r = .returned res → Post u m r res := by
  intro fuel
  induction fuel with
  | zero => intro m r res h; simp [descendTree] at h
  | succ n ih =>
    intro m r res h
    rw [descendTree] at h
    cases hl : descendLoop (descendTree n u) (classesAt u r) m ∅ with
    | outOfFuel => rw [hl] at h; cases h
    | failed err => rw [hl] at h; cases h
    | returned pr =>
      obtain ⟨m1, acc⟩ := pr
      rw [hl] at h
      simp only [Outcome.returned.injEq] at h
      subst h
      obtain ⟨hacc, hold, hall, hnew⟩ :=
        descendLoop_post u (descendTree n u) (fun m cls res _ hr => ih m cls res hr) _ _ _ _ _ hl
      have hacc' : acc = directParents u r := by rw [hacc]; simp [directParents]
      constructor
      · intro k hk
        exact Finmap.mem_insert.mpr (Or.inr (hold k hk).1)
      · intro k hk hne
        rw [Finmap.lookup_insert_of_ne _ hne]
        exact (hold k hk).2
      · rw [Finmap.lookup_insert, hacc']
      · intro p hp
        exact Finmap.mem_insert.mpr (Or.inr (hall p hp))
      · intro k hk hk'
        by_cases hkr : k = r
        · subst hkr
          refine ⟨by rw [Finmap.lookup_insert, hacc'], fun p hp =>
            Finmap.mem_insert.mpr (Or.inr (hall p hp)), Relation.ReflTransGen.refl⟩
        · have hk1 : k ∈ m1 := by
            rcases Finmap.mem_insert.mp hk with h | h
            · exact absurd h hkr
            · exact h
          obtain ⟨h1, h2, p, hp, h3⟩ := hnew k hk1 hk'
          refine ⟨by rw [Finmap.lookup_insert_of_ne _ hkr, h1], fun q hq =>
            Finmap.mem_insert.mpr (Or.inr (h2 q hq)), Relation.ReflTransGen.head hp h3⟩

/-! ## The resolver returns no error, and more fuel does not change a result -/

theorem descendLoop_ne_failed (recurse : Relationships → String → Outcome Relationships)
    (hrec : ∀ m cls err, recurse m cls ≠ .failed err) :
    ∀ (l : List String) (m : Relationships) (acc : Finset String) (err : String),
      descendLoop recurse l m acc ≠ .failed err := by
  intro l
  induction l with
  | nil => intro m acc err h; simp [descendLoop] at h
  | cons cls rest ih =>
    intro m acc err h
    rw [descendLoop] at h
    cases hl : m.lookup cls with
    | some s => rw [hl] at h; exact ih _ _ _ h
    | none =>
      rw [hl] at h
      cases hr : recurse m cls with
      | outOfFuel => rw [hr] at h; cases h
      | failed e => exact hrec _ _ _ hr
      | returned m1 => rw [hr] at h; exact ih _ _ _ h

theorem descendTree_ne_failed (u : Universe) :
    ∀ (fuel : Nat) (m : Relationships) (r : String) (err : String),
      descendTree fuel u m r ≠ .failed err := by
  intro fuel
  induction fuel with
  | zero => intro m r err h; simp [descendTree] at h
  | succ n ih =>
    intro m r err h
    rw [descendTree] at h
    cases hl : descendLoop (descendTree n u) (classesAt u r) m ∅ with
    | outOfFuel => rw [hl] at h; cases h
    | failed e => exact descendLoop_ne_failed _ ih _ _ _ _ hl
    | returned pr => rw [hl] at h; cases h

theorem descendLoop_mono (recurse recurse' : Relationships → String → Outcome Relationships)
    (hrec : ∀ m cls res, recurse m cls = .returned res → recurse' m cls = .returned res) :
    ∀ (l : List String) (m : Relationships) (acc : Finset String)
      (out : Relationships × Finset String),
      descendLoop recurse l m acc = .returned out →
      descendLoop recurse' l m acc = .returned out := by
  intro l
  induction l with
  | nil => intro m acc out h; simpa [descendLoop] using h
  | cons cls rest ih =>
    intro m acc out h
    rw [descendLoop] at h ⊢
    cases hl : m.lookup cls with
    | some s => rw [hl] at h; exact ih _ _ _ h
    | none =>
      rw [hl] at h
      cases hr : recurse m cls with
      | outOfFuel => rw [hr] at h; cases h
      | failed e => rw [hr] at h; cases h
      | returned m1 =>
        rw [hr] at h
        simp only [hrec _ _ _ hr]
        exact ih _ _ _ h

theorem descendTree_mono_succ (u : Universe) :
    ∀ (fuel : Nat) (m : Relationships) (r : String) (res : Relationships),
      descendTree fuel u m r = .returned res → descendTree (fuel + 1) u m r = .returned res := by
  intro fuel
  induction fuel with
  | zero => intro m r res h; simp [descendTree] at h
  | succ n ih =>
    intro m r res h
    rw [descendTree] at h ⊢
    cases hl : descendLoop (descendTree n u) (classesAt u r) m ∅ with
    | outOfFuel => rw [hl] at h; cases h
    | failed e => rw [hl] at h; cases h
    | returned pr =>
      rw [hl] at h
      rw [descendLoop_mono _ _ ih _ _ _ _ hl]
      exact h

theorem descendTree_mono (u : Universe) (m : Relationships) (r : String) (res : Relationships)
    (fuel fuel' : Nat) (hle : fuel ≤ fuel') (h : descendTree fuel u m r = .returned res) :
    descendTree fuel' u m r = .returned res := by
  induction hle with
  | refl => exact h
  | step _ ih => exact descendTree_mono_succ u _ m r res ih

/-- When every name of the list is already a key, the loop recurses nowhere. -/
theorem descendLoop_skip (recurse : Relationships → String → Outcome Relationships)
    (m : Relationships) :
    ∀ (l : List String) (acc : Finset String), (∀ p ∈ l, p ∈ m) →
      descendLoop recurse l m acc = .returned (m, acc ∪ l.toFinset) := by
  intro l
  induction l with
  | nil => intro acc _; simp [descendLoop]
  | cons cls rest ih =>
    intro acc h
    rw [descendLoop]
    obtain ⟨s, hs⟩ := Finmap.mem_iff.mp (h cls (List.mem_cons_self _ _))
    rw [hs]
    simp only
    rw [ih _ (fun p hp => h p (List.mem_cons_of_mem _ hp))]
    congr 2
    ext x
    simp

theorem mem_directParents (u : Universe) (k x : String) :
    x ∈ directParents u k ↔ ∃ l, u.lookup k = some l ∧ x ∈ l := by
  unfold directParents classesAt
  cases h : u.lookup k with
  | none => simp
  | some l => simp

theorem classesAt_of_not_mem (u : Universe) (k : String) (h : k ∉ u) : classesAt u k = [] := by
  unfold classesAt
  rw [Finmap.lookup_eq_none.mpr h]
  rfl

/-! ## Mappings built by the resolver from the empty mapping -/

theorem good_of_post (u : Universe) (m res : Relationships) (r : String)
    (hm : Good u m) (hp : Post u m r res) : Good u res := by
  intro k s hk
  by_cases hkr : k = r
  · subst hkr
    rw [hp.root] at hk
    exact ⟨(Option.some.inj hk).symm, hp.rootParents⟩
  · by_cases hkm : k ∈ m
    · rw [hp.old k hkm hkr] at hk
      exact ⟨(hm k s hk).1, fun p hq => hp.keys p ((hm k s hk).2 p hq)⟩
    · obtain ⟨h1, h2, _⟩ := hp.fresh k (Finmap.mem_of_lookup_eq_some hk) hkm
      rw [h1] at hk
      exact ⟨(Option.some.inj hk).symm, h2⟩

theorem good_empty (u : Universe) : Good u ∅ := by
  intro k s hk
  simp [Finmap.lookup_empty] at hk

theorem good_reach_closed (u : Universe) (m : Relationships) (hm : Good u m) (a b : String)
    (ha : a ∈ m) (hab : Reach u a b) : b ∈ m := by
  induction hab with
  | refl => exact ha
  | tail _ hstep ih =>
    obtain ⟨s, hs⟩ := Finmap.mem_iff.mp ih
    exact (hm _ s hs).2 _ hstep

/-- Entries of a mapping that holds only direct-parent sets survive a further call. -/
theorem post_preserves (u : Universe) (m res : Relationships) (r : String)
    (hm : Good u m) (hp : Post u m r res) (k : String) (s : Finset String)
    (hk : m.lookup k = some s) : res.lookup k = some s := by
  by_cases hkr : k = r
  · subst hkr
    rw [hp.root, (hm k s hk).1]
  · rw [hp.old k (Finmap.mem_of_lookup_eq_some hk) hkr, hk]

/-! ## Properties of `descendTree` -/

/-- C1. Whenever `descendTree` returns, the entry of the root and the entry of every key of
the result that was not a key of the initial mapping is the set of the names of that key's
declared-parents list in the universe: a name is in the set exactly when the universe has a
list for the key and the name occurs in it. On the universe of the end-to-end example, from
the empty mapping and root `cluster1`, the call returns the expected mapping as soon as the
fuel allows three nested calls. -/
theorem descendTree_entries_direct :
    (∀ (u : Universe) (fuel : Nat) (m : Relationships) (r : String) (res : Relationships),
      descendTree fuel u m r = .returned res →
        res.lookup r = some (directParents u r) ∧
        ∀ k, k ∈ res → k ∉ m → res.lookup k = some (directParents u k)) ∧
    (∀ (u : Universe) (k x : String),
      x ∈ directParents u k ↔ ∃ l, u.lookup k = some l ∧ x ∈ l) ∧
    (∀ fuel, 3 ≤ fuel →
      descendTree fuel exampleUniverse ∅ "cluster1" = .returned exampleResult) := by
  refine ⟨?_, mem_directParents, ?_⟩
  · intro u fuel m r res h
    have hp := descendTree_post u fuel m r res h
    exact ⟨hp.root, fun k hk hk' => (hp.fresh k hk hk').1⟩
  · intro fuel hfuel
    exact descendTree_mono exampleUniverse ∅ "cluster1" exampleResult 3 fuel hfuel (by decide)

theorem descendTree_entries_direct_witness :
    exampleResult.lookup "app" = some (directParents exampleUniverse "app") :=
  (descendTree_entries_direct.1 exampleUniverse 3 ∅ "cluster1" exampleResult (by decide)).2
    "app" (by decide) (by decide)

/-- C2. When `descendTree` is started from the empty mapping and returns, every key of the
result is reachable from the root by zero or more parent-reference hops, and every name
reachable from the root that is a key of the universe is a key of the result. -/
theorem descendTree_keys_reachable (u : Universe) (fuel : Nat) (r : String)
    (res : Relationships) (h : descendTree fuel u ∅ r = .returned res) :
    (∀ k, k ∈ res → Reach u r k) ∧ (∀ k, Reach u r k → k ∈ u → k ∈ res) := by
  have hp := descendTree_post u fuel ∅ r res h
  have hg := good_of_post u ∅ res r (good_empty u) hp
  refine ⟨fun k hk => (hp.fresh k hk (Finmap.not_mem_empty)).2.2, fun k hk _ => ?_⟩
  exact good_reach_closed u res hg r k (Finmap.mem_of_lookup_eq_some hp.root) hk

theorem descendTree_keys_reachable_witness :
    (∀ k, k ∈ exampleResult → Reach exampleUniverse "cluster1" k) ∧
    (∀ k, Reach exampleUniverse "cluster1" k → k ∈ exampleUniverse → k ∈ exampleResult) :=
  descendTree_keys_reachable exampleUniverse 3 "cluster1" exampleResult (by decide)

/-- C3 as stated fails: in the universe whose only entry is `e` with the declared parent `p`,
the call on root `e` from the empty mapping returns, `e` is resolved, `p` is listed for `e`
and is not a key of the universe, and yet `p` is a key of the result. -/
theorem unresolved_reference_is_added :
    ∃ res, descendTree 2 danglingUniverse ∅ "e" = .returned res ∧ "e" ∈ res ∧
      "p" ∈ classesAt danglingUniverse "e" ∧ "p" ∉ danglingUniverse ∧ "p" ∈ res :=
  ⟨Finmap.insert "e" {"p"} (Finmap.singleton "p" ∅),
    by decide, by decide, by decide, by decide, by decide⟩

/-- C3 amended. For every entity `e` resolved by `descendTree` started from the empty
mapping, a name `p` listed in `universe[e]` that is not a key of the universe is in the
direct-parent set of `e`, and `p` is itself a key of the result, with the empty set as its
entry. -/
theorem unresolved_reference_entry (u : Universe) (fuel : Nat) (r : String)
    (res : Relationships) (e p : String) (h : descendTree fuel u ∅ r = .returned res)
    (he : e ∈ res) (hp : p ∈ classesAt u e) (hpu : p ∉ u) :
    (∃ s, res.lookup e = some s ∧ p ∈ s) ∧ res.lookup p = some ∅ := by
  have hpost := descendTree_post u fuel ∅ r res h
  obtain ⟨h1, h2, _⟩ := hpost.fresh e he Finmap.not_mem_empty
  refine ⟨⟨_, h1, by simpa [directParents] using hp⟩, ?_⟩
  obtain ⟨h3, _, _⟩ := hpost.fresh p (h2 p hp) Finmap.not_mem_empty
  rw [h3]
  simp [directParents, classesAt_of_not_mem u p hpu]

theorem unresolved_reference_entry_witness :
    (∃ s, (Finmap.insert "e" {"p"} (Finmap.singleton "p" ∅) : Relationships).lookup "e" = some s
      ∧ "p" ∈ s) ∧
    (Finmap.insert "e" {"p"} (Finmap.singleton "p" ∅) : Relationships).lookup "p" = some ∅ :=
  unresolved_reference_entry danglingUniverse 2 "e" _ "e" "p" (by decide) (by decide)
    (by decide) (by decide)

/-- C4. Idempotence: when `descendTree(u, m, r)` returns `res`, the call
`descendTree(u, res, r)` returns as well, with any fuel that allows one call, and its result
is `res`. -/
theorem descendTree_idempotent (u : Universe) (fuel : Nat) (m : Relationships) (r : String)
    (res : Relationships) (h : descendTree fuel u m r = .returned res) :
    ∀ fuel', descendTree (fuel' + 1) u res r = .returned res := by
  intro fuel'
  have hp := descendTree_post u fuel m r res h
  rw [descendTree, descendLoop_skip _ res _ _ hp.rootParents]
  simp only [Outcome.returned.injEq]
  apply Finmap.ext_lookup
  intro x
  by_cases hx : x = r
  · subst hx
    rw [Finmap.lookup_insert, hp.root]
    simp [directParents]
  · rw [Finmap.lookup_insert_of_ne _ hx]

theorem descendTree_idempotent_witness :
    descendTree 1 exampleUniverse exampleResult "cluster1" = .returned exampleResult :=
  descendTree_idempotent exampleUniverse 3 ∅ "cluster1" exampleResult (by decide) 0

/-! ## Termination on acyclic input -/

theorem mem_of_classesAt (u : Universe) (x p : String) (h : p ∈ classesAt u x) : x ∈ u := by
  by_contra hx
  rw [classesAt_of_not_mem u x hx] at h
  cases h

theorem descendLoop_returns (recurse : Relationships → String → Outcome Relationships) :
    ∀ (l : List String), (∀ p ∈ l, ∀ m, ∃ res, recurse m p = .returned res) →
      ∀ (m : Relationships) (acc : Finset String),
        ∃ out, descendLoop recurse l m acc = .returned out := by
  intro l
  induction l with
  | nil => intro _ m acc; exact ⟨_, rfl⟩
  | cons cls rest ih =>
    intro h m acc
    have ih' := ih (fun p hp => h p (List.mem_cons_of_mem _ hp))
    rw [descendLoop]
    cases hl : m.lookup cls with
    | some s => exact ih' _ _
    | none =>
      obtain ⟨m1, hm1⟩ := h cls (List.mem_cons_self _ _) m
      simp only [hm1]
      exact ih' _ _

/-- The names of `S` are on the chain of calls that leads to `x`; each nested call puts one
more key of the universe on the chain, so the keys outside the chain bound the depth. -/
theorem descendTree_returns_aux (u : Universe) :
    ∀ (fuel : Nat) (S : Finset String) (x : String), S ⊆ u.keys →
      (∀ s ∈ S, Relation.TransGen (Edge u) s x) → AcyclicFrom u x →
      u.keys.card < fuel + S.card →
      ∀ m, ∃ res, descendTree fuel u m x = .returned res := by
  intro fuel
  induction fuel with
  | zero =>
    intro S x hS _ _ hcard m
    have := Finset.card_le_card hS
    omega
  | succ n ih =>
    intro S x hS hchain hacyc hcard m
    rw [descendTree]
    have hloop : ∃ out, descendLoop (descendTree n u) (classesAt u x) m ∅ = .returned out := by
      apply descendLoop_returns
      intro p hp
      have hxu : x ∈ u.keys := Finmap.mem_keys.mpr (mem_of_classesAt u x p hp)
      have hxS : x ∉ S := fun hx => hacyc x Relation.ReflTransGen.refl (hchain x hx)
      apply ih (insert x S) p
      · exact Finset.insert_subset hxu hS
      · intro s hs
        rcases Finset.mem_insert.mp hs with rfl | hs
        · exact Relation.TransGen.single hp
        · exact Relation.TransGen.tail (hchain s hs) hp
      · intro y hy
        exact hacyc y (Relation.ReflTransGen.head hp hy)
      · rw [Finset.card_insert_of_not_mem hxS]
        omega
    obtain ⟨⟨m1, acc⟩, hout⟩ := hloop
    rw [hout]
    exact ⟨_, rfl⟩

/-- C6. Termination on acyclic input: when no cycle of parent references is reachable from
the root, `descendTree` returns a mapping with a nil error from every initial mapping, as
soon as the fuel allows one nested call per key of the universe and one more; and
`descendTree` returns a non-nil error on no input at all. -/
theorem descendTree_terminates (u : Universe) (m : Relationships) (r : String)
    (h : AcyclicFrom u r) :
    (∃ res, ∀ fuel, u.keys.card + 1 ≤ fuel → descendTree fuel u m r = .returned res) ∧
    (∀ (fuel : Nat) (u' : Universe) (m' : Relationships) (r' err : String),
      descendTree fuel u' m' r' ≠ .failed err) := by
  refine ⟨?_, fun fuel u' m' r' err => descendTree_ne_failed u' fuel m' r' err⟩
  obtain ⟨res, hres⟩ := descendTree_returns_aux u (u.keys.card + 1) ∅ r (Finset.empty_subset _)
    (fun s hs => absurd hs (Finset.not_mem_empty s)) h (by simp) m
  exact ⟨res, fun fuel hfuel => descendTree_mono u m r res _ fuel hfuel hres⟩

theorem acyclicFrom_of_rank (u : Universe) (rank : String → Nat)
    (hrank : ∀ a b, Edge u a b → rank b < rank a) (r : String) : AcyclicFrom u r := by
  have hlt : ∀ a b, Relation.TransGen (Edge u) a b → rank b < rank a := by
    intro a b hab
    induction hab with
    | single h => exact hrank _ _ h
    | tail _ h ih => exact lt_trans (hrank _ _ h) ih
  intro x _ hx
  exact lt_irrefl _ (hlt x x hx)

theorem exampleUniverse_acyclic : AcyclicFrom exampleUniverse "cluster1" := by
  apply acyclicFrom_of_rank exampleUniverse
    (fun k => if k = "cluster1" then 2 else if k = "app" then 1 else 0)
  intro a b hab
  unfold Edge classesAt exampleUniverse at hab
  by_cases h1 : a = "app"
  · subst h1
    simp [Finmap.lookup_insert] at hab
    subst hab
    decide
  · rw [Finmap.lookup_insert_of_ne _ h1] at hab
    by_cases h2 : a = "base"
    · subst h2
      simp [Finmap.lookup_insert] at hab
    · rw [Finmap.lookup_insert_of_ne _ h2] at hab
      by_cases h3 : a = "cluster1"
      · subst h3
        simp [Finmap.lookup_insert] at hab
        subst hab
        decide
      · rw [Finmap.lookup_insert_of_ne _ h3] at hab
        simp [Finmap.lookup_empty] at hab

theorem descendTree_terminates_witness :
    (∃ res, ∀ fuel, exampleUniverse.keys.card + 1 ≤ fuel →
      descendTree fuel exampleUniverse ∅ "cluster1" = .returned res) ∧
    (∀ (fuel : Nat) (u' : Universe) (m' : Relationships) (r' err : String),
      descendTree fuel u' m' r' ≠ .failed err) :=
  descendTree_terminates exampleUniverse ∅ "cluster1" exampleUniverse_acyclic

/-! ## Divergence on a fresh cycle -/

theorem descendLoop_trap (u : Universe) (B : String → Prop)
    (htrap : ∀ y, B y → ∃ p ∈ classesAt u y, B p)
    (recurse : Relationships → String → Outcome Relationships)
    (hrec : ∀ m cls res, (∀ y, B y → y ∉ m) → recurse m cls = .returned res →
      (∀ p ∈ classesAt u cls, ¬ B p) ∧ ∀ y, B y → y ∉ res) :
    ∀ (l : List String) (m : Relationships) (acc : Finset String)
      (out : Relationships × Finset String), (∀ y, B y → y ∉ m) →
      descendLoop recurse l m acc = .returned out →
      (∀ p ∈ l, ¬ B p) ∧ ∀ y, B y → y ∉ out.1 := by
  intro l
  induction l with
  | nil =>
    intro m acc out hm h
    simp only [descendLoop, Outcome.returned.injEq] at h
    subst h
    exact ⟨by simp, hm⟩
  | cons cls rest ih =>
    intro m acc out hm h
    rw [descendLoop] at h
    cases hl : m.lookup cls with
    | some s =>
      rw [hl] at h
      obtain ⟨h1, h2⟩ := ih m _ out hm h
      refine ⟨?_, h2⟩
      intro p hp
      rcases List.mem_cons.mp hp with rfl | hp
      · exact fun hb => hm _ hb (Finmap.mem_of_lookup_eq_some hl)
      · exact h1 p hp
    | none =>
      rw [hl] at h
      cases hr : recurse m cls with
      | outOfFuel => rw [hr] at h; cases h
      | failed err => rw [hr] at h; cases h
      | returned m1 =>
        rw [hr] at h
        simp only [mapsCopy_self] at h
        obtain ⟨h3, h4⟩ := hrec m cls m1 hm hr
        obtain ⟨h1, h2⟩ := ih m1 _ out h4 h
        refine ⟨?_, h2⟩
        intro p hp
        rcases List.mem_cons.mp hp with rfl | hp
        · intro hb
          obtain ⟨q, hq, hbq⟩ := htrap _ hb
          exact h3 q hq hbq
        · exact h1 p hp

theorem descendTree_trap (u : Universe) (B : String → Prop)
    (htrap : ∀ y, B y → ∃ p ∈ classesAt u y, B p) :
    ∀ (fuel : Nat) (m : Relationships) (x : String) (res : Relationships),
      (∀ y, B y → y ∉ m) → descendTree fuel u m x = .returned res →
      (∀ p ∈ classesAt u x, ¬ B p) ∧ ∀ y, B y → y ∉ res := by
  intro fuel
  induction fuel with
  | zero => intro m x res _ h; simp [descendTree] at h
  | succ n ih =>
    intro m x res hm h
    rw [descendTree] at h
    cases hl : descendLoop (descendTree n u) (classesAt u x) m ∅ with
    | outOfFuel => rw [hl] at h; cases h
    | failed err => rw [hl] at h; cases h
    | returned pr =>
      obtain ⟨m1, acc⟩ := pr
      rw [hl] at h
      simp only [Outcome.returned.injEq] at h
      subst h
      obtain ⟨h1, h2⟩ := descendLoop_trap u B htrap (descendTree n u) ih _ _ _ _ hm hl
      refine ⟨h1, fun y hy hmem => ?_⟩
      rcases Finmap.mem_insert.mp hmem with rfl | hmem
      · obtain ⟨q, hq, hbq⟩ := htrap _ hy
        exact h1 q hq hbq
      · exact h2 y hy hmem

theorem freshCycle_step (u : Universe) (m : Relationships) (y : String)
    (h : FreshCycleFrom u m y) :
    ∃ p ∈ classesAt u y, p ∉ m ∧ FreshCycleFrom u m p := by
  obtain ⟨c, hyc, hcc⟩ := h
  have hplus : Relation.TransGen (FreshEdge u m) y c :=
    Relation.TransGen.trans_right hyc hcc
  obtain ⟨b, hyb, hbc⟩ := Relation.TransGen.head'_iff.mp hplus
  exact ⟨b, hyb.1, hyb.2, c, hbc, hcc⟩

/-- C9. Fresh cycle: when a cycle of parent references none of whose members is a key of the
mapping is reachable from the root along names that are not keys of the mapping,
`descendTree` returns with no amount of fuel. -/
theorem descendTree_fresh_cycle_diverges (u : Universe) (m : Relationships) (r : String)
    (h : FreshCycleFrom u m r) : ∀ fuel, descendTree fuel u m r = .outOfFuel := by
  intro fuel
  have htrap : ∀ y, (y ∉ m ∧ FreshCycleFrom u m y) →
      ∃ p ∈ classesAt u y, (p ∉ m ∧ FreshCycleFrom u m p) := by
    intro y hy
    obtain ⟨p, hp, hpm, hpc⟩ := freshCycle_step u m y hy.2
    exact ⟨p, hp, hpm, hpc⟩
  cases hres : descendTree fuel u m r with
  | outOfFuel => rfl
  | failed err => exact absurd hres (descendTree_ne_failed u fuel m r err)
  | returned res =>
    exfalso
    obtain ⟨h1, _⟩ := descendTree_trap u _ htrap fuel m r res (fun y hy => hy.1) hres
    obtain ⟨p, hp, hpm, hpc⟩ := freshCycle_step u m r h
    exact h1 p hp ⟨hpm, hpc⟩

theorem descendTree_fresh_cycle_diverges_witness :
    FreshCycleFrom selfLoopUniverse ∅ "A" ∧
      descendTree 1000000 selfLoopUniverse ∅ "A" = .outOfFuel :=
  ⟨⟨"A", Relation.ReflTransGen.refl,
      Relation.TransGen.single ⟨by decide, Finmap.not_mem_empty⟩⟩,
    descendTree_fresh_cycle_diverges selfLoopUniverse ∅ "A"
      ⟨"A", Relation.ReflTransGen.refl,
        Relation.TransGen.single ⟨by decide, Finmap.not_mem_empty⟩⟩ 1000000⟩

/-! ## The driver loop of `Run` -/

theorem passState_good (u : Universe) (m : Relationships) (h : PassState u m) : Good u m := by
  induction h with
  | empty => exact good_empty u
  | call m res fuel r _ hcall ih => exact good_of_post u m res r ih (descendTree_post u _ _ _ _ hcall)

/-- C8. Monotone growth: from every state of the mapping reached in a resolution pass that
starts from the empty mapping, a further `descendTree` call that returns leaves every entry
of the mapping present, with the same value set. -/
theorem descendTree_monotone (u : Universe) (m : Relationships) (hm : PassState u m)
    (fuel : Nat) (r : String) (res : Relationships)
    (h : descendTree fuel u m r = .returned res) :
    ∀ k s, m.lookup k = some s → res.lookup k = some s :=
  fun k s hk =>
    post_preserves u m res r (passState_good u m hm) (descendTree_post u fuel m r res h) k s hk

theorem descendTree_monotone_witness :
    descendTree 1 exampleUniverse exampleResult "extra" =
        .returned (Finmap.insert "extra" ∅ exampleResult) ∧
      (Finmap.insert "extra" ∅ exampleResult : Relationships).lookup "app" = some {"base"} :=
  ⟨by decide,
    descendTree_monotone exampleUniverse exampleResult
      (PassState.call ∅ exampleResult 3 "cluster1" PassState.empty (by decide))
      1 "extra" (Finmap.insert "extra" ∅ exampleResult) (by decide) "app" {"base"} (by decide)⟩

theorem driverLoop_inv (u : Universe) (fuel : Nat) :
    ∀ (order : List String) (m res : Relationships), Good u m →
      driverLoop fuel u order m = .returned res →
      Good u res ∧ (∀ k, k ∈ m → k ∈ res) ∧ (∀ r ∈ order, r ∈ res) ∧
        (∀ k, k ∈ res → k ∉ m → ∃ r ∈ order, Reach u r k) := by
  intro order
  induction order with
  | nil =>
    intro m res hm h
    simp only [driverLoop, Outcome.returned.injEq] at h
    subst h
    exact ⟨hm, fun k hk => hk, by simp, fun k hk hk' => absurd hk hk'⟩
  | cons t rest ih =>
    intro m res hm h
    rw [driverLoop] at h
    cases hr : descendTree fuel u m t with
    | outOfFuel => rw [hr] at h; cases h
    | failed err => rw [hr] at h; cases h
    | returned m1 =>
      rw [hr] at h
      simp only [mapsCopy_self] at h
      have hp := descendTree_post u fuel m t m1 hr
      obtain ⟨hg, hkeys, hroots, hnew⟩ := ih m1 res (good_of_post u m m1 t hm hp) h
      refine ⟨hg, fun k hk => hkeys k (hp.keys k hk), ?_, ?_⟩
      · intro r hr'
        rcases List.mem_cons.mp hr' with rfl | hr'
        · exact hkeys _ (Finmap.mem_of_lookup_eq_some hp.root)
        · exact hroots r hr'
      · intro k hk hk'
        by_cases hk1 : k ∈ m1
        · exact ⟨t, List.mem_cons_self _ _, (hp.fresh k hk1 hk').2.2⟩
        · obtain ⟨r, hr', hreach⟩ := hnew k hk hk1
          exact ⟨r, List.mem_cons_of_mem _ hr', hreach⟩

/-- The mapping a returning pass builds from the empty mapping: its keys are the names
reachable from a root, and each entry is the set of the direct parents of its key. -/
theorem driverLoop_lookup (u : Universe) (fuel : Nat) (order : List String)
    (res : Relationships) (h : driverLoop fuel u order ∅ = .returned res) (k : String) :
    (k ∈ res ↔ ∃ r ∈ order, Reach u r k) ∧
      (k ∈ res → res.lookup k = some (directParents u k)) := by
  obtain ⟨hg, _, hroots, hnew⟩ := driverLoop_inv u fuel order ∅ res (good_empty u) h
  refine ⟨⟨fun hk => hnew k hk Finmap.not_mem_empty, ?_⟩, ?_⟩
  · rintro ⟨r, hr, hreach⟩
    exact good_reach_closed u res hg r k (hroots r hr) hreach
  · intro hk
    obtain ⟨s, hs⟩ := Finmap.mem_iff.mp hk
    rw [hs, (hg k s hs).1]

/-- C10. Order independence of the driver: two iteration orders of the same targets for
which the pass returns give the same final relationship mapping, and the same set of
emitted edges. -/
theorem driverLoop_order_independent (u targets : Universe) (order1 order2 : List String)
    (fuel1 fuel2 : Nat) (res1 res2 : Relationships)
    (ho1 : IsIterationOrder order1 targets) (ho2 : IsIterationOrder order2 targets)
    (h1 : driverLoop fuel1 u order1 ∅ = .returned res1)
    (h2 : driverLoop fuel2 u order2 ∅ = .returned res2) :
    res1 = res2 ∧ emitEdges res1 = emitEdges res2 := by
  have hkeys : ∀ k, k ∈ res1 ↔ k ∈ res2 := by
    intro k
    rw [(driverLoop_lookup u fuel1 order1 res1 h1 k).1,
      (driverLoop_lookup u fuel2 order2 res2 h2 k).1]
    constructor
    · rintro ⟨r, hr, hreach⟩
      exact ⟨r, (ho2.2 r).mpr ((ho1.2 r).mp hr), hreach⟩
    · rintro ⟨r, hr, hreach⟩
      exact ⟨r, (ho1.2 r).mpr ((ho2.2 r).mp hr), hreach⟩
  have heq : res1 = res2 := by
    apply Finmap.ext_lookup
    intro k
    by_cases hk : k ∈ res1
    · rw [(driverLoop_lookup u fuel1 order1 res1 h1 k).2 hk,
        (driverLoop_lookup u fuel2 order2 res2 h2 k).2 ((hkeys k).mp hk)]
    · rw [Finmap.lookup_eq_none.mpr hk,
        Finmap.lookup_eq_none.mpr (fun hk2 => hk ((hkeys k).mpr hk2))]
  exact ⟨heq, by rw [heq]⟩

theorem sharedTargets_order (order : List String) (hn : order.Nodup)
    (hm : ∀ k, k ∈ order ↔ k = "A" ∨ k = "B") : IsIterationOrder order sharedTargets := by
  refine ⟨hn, fun k => ?_⟩
  rw [hm k]
  unfold sharedTargets
  simp [Finmap.mem_insert, Finmap.not_mem_empty]

theorem driverLoop_order_independent_witness :
    (Finmap.insert "B" {"A"} (Finmap.insert "A" ∅ ∅) : Relationships) =
        Finmap.insert "A" ∅ (Finmap.insert "B" {"A"} (Finmap.insert "A" ∅ ∅)) ∧
      emitEdges (Finmap.insert "B" {"A"} (Finmap.insert "A" ∅ ∅) : Relationships) =
        emitEdges
          (Finmap.insert "A" ∅ (Finmap.insert "B" {"A"} (Finmap.insert "A" ∅ ∅)) : Relationships) :=
  driverLoop_order_independent (mergeUniverses ∅ sharedTargets) sharedTargets
    ["A", "B"] ["B", "A"] 2 2 _ _
    (sharedTargets_order _ (by decide) (by simp))
    (sharedTargets_order _ (by decide) (by simp; tauto))
    (by decide) (by decide)

/-! ## The target selection of `Run` -/

/-- With no fuel the driver loop cannot make a single `descendTree` call. -/
theorem driverLoop_zero (u : Universe) (t : String) (rest : List String) (m : Relationships) :
    driverLoop 0 u (t :: rest) m = .outOfFuel := by
  simp [driverLoop, descendTree]

/-- C7. Missing target: the target selection of `Run` fails, and then with the error
`target not found: <name>`, exactly when the filter is non-empty and is not a key of the
target universe. When it fails, `Run` returns that error and no edges, whatever the fuel, so
also with no fuel at all, where any `descendTree` call would run out of fuel. A non-empty
filter that is a key selects that one target with its declared parents, and the empty filter
selects all targets. -/
theorem selectTargets_missing (target : String) (classes targets : Universe) :
    ((∃ err, selectTargets target targets = .error err) ↔ target ≠ "" ∧ target ∉ targets) ∧
    (∀ err, selectTargets target targets = .error err →
      err = "target not found: " ++ target ∧
      ∀ fuel order, Run fuel target classes targets order = .failed err) ∧
    (∀ contents, target ≠ "" → targets.lookup target = some contents →
      selectTargets target targets = .ok (Finmap.singleton target contents)) ∧
    (target = "" → selectTargets target targets = .ok targets) := by
  refine ⟨?_, ?_, ?_, ?_⟩
  · unfold selectTargets
    by_cases ht : target = ""
    · simp [ht]
    · cases hl : targets.lookup target with
      | none => simp [ht, Finmap.lookup_eq_none.mp hl]
      | some c => simp [ht, Finmap.mem_of_lookup_eq_some hl]
  · intro err herr
    have hmsg : err = "target not found: " ++ target := by
      unfold selectTargets at herr
      by_cases ht : target = ""
      · simp [ht] at herr
      · cases hl : targets.lookup target with
        | none => rw [hl] at herr; simp [ht] at herr; exact herr.symm
        | some c => rw [hl] at herr; simp [ht] at herr
    refine ⟨hmsg, fun fuel order => ?_⟩
    unfold Run
    rw [herr]
  · intro contents ht hl
    unfold selectTargets
    rw [hl]
    simp [ht]
  · intro ht
    unfold selectTargets
    simp [ht]

theorem selectTargets_missing_witness :
    Run 0 "missing" exampleClasses exampleTargets ["cluster1"] =
      .failed "target not found: missing" :=
  ((selectTargets_missing "missing" exampleClasses exampleTargets).2.1
    "target not found: missing" rfl).2 0 ["cluster1"]

/-! ## Counting the assignments -/

theorem descendLoopLog_erase (recurseLog : Traced → String → Outcome Traced)
    (recurse : Relationships → String → Outcome Relationships)
    (hrec : ∀ st cls, (recurseLog st cls).map Prod.fst = recurse st.1 cls) :
    ∀ (l : List String) (st : Traced) (acc : Finset String),
      (descendLoopLog recurseLog l st acc).map (fun out => (out.1.1, out.2)) =
        descendLoop recurse l st.1 acc := by
  intro l
  induction l with
  | nil => intro st acc; rfl
  | cons cls rest ih =>
    intro st acc
    rw [descendLoopLog, descendLoop]
    cases hl : st.1.lookup cls with
    | some s => exact ih _ _
    | none =>
      have h := hrec st cls
      cases hr : recurseLog st cls with
      | outOfFuel => rw [hr] at h; simp only [Outcome.map] at h; simp only [← h]; rfl
      | failed err => rw [hr] at h; simp only [Outcome.map] at h; simp only [← h]; rfl
      | returned m1 =>
        rw [hr] at h
        simp only [Outcome.map] at h
        simp only [← h]
        exact ih _ _

/-- The record of assignments changes nothing in what `descendTree` computes. -/
theorem descendTreeLog_erase (u : Universe) :
    ∀ (fuel : Nat) (st : Traced) (r : String),
      (descendTreeLog fuel u st r).map Prod.fst = descendTree fuel u st.1 r := by
  intro fuel
  induction fuel with
  | zero => intro st r; rfl
  | succ n ih =>
    intro st r
    rw [descendTreeLog, descendTree]
    have h := descendLoopLog_erase (descendTreeLog n u) (descendTree n u) ih
      (classesAt u r) st ∅
    cases hl : descendLoopLog (descendTreeLog n u) (classesAt u r) st ∅ with
    | outOfFuel => rw [hl] at h; simp only [Outcome.map] at h; simp only [← h]; rfl
    | failed err => rw [hl] at h; simp only [Outcome.map] at h; simp only [← h]; rfl
    | returned out =>
      rw [hl] at h
      simp only [Outcome.map] at h
      simp only [← h]
      rfl

/-- The record of assignments changes nothing in what the driver loop computes. -/
theorem driverLoopLog_erase (u : Universe) (fuel : Nat) :
    ∀ (order : List String) (st : Traced),
      (driverLoopLog fuel u order st).map Prod.fst = driverLoop fuel u order st.1 := by
  intro order
  induction order with
  | nil => intro st; rfl
  | cons t rest ih =>
    intro st
    rw [driverLoopLog, driverLoop]
    have h := descendTreeLog_erase u fuel st t
    cases hr : descendTreeLog fuel u st t with
    | outOfFuel => rw [hr] at h; simp only [Outcome.map] at h; simp only [← h]; rfl
    | failed err => rw [hr] at h; simp only [Outcome.map] at h; simp only [← h]; rfl
    | returned m1 =>
      rw [hr] at h
      simp only [Outcome.map] at h
      simp only [← h]
      exact ih _

/-- C5, the code at the failing input: with the targets `A` (no parents) and `B` (parent
`A`) visited in the order `B`, `A`, the pass returns and the assignment
`relationships[class] = descendants` is made twice for `A`: once in the nested call made for
`B`, and once more in the call the driver makes for the root `A`. -/
theorem shared_root_written_twice :
    IsIterationOrder ["B", "A"] sharedTargets ∧
    (driverLoopLog 2 (mergeUniverses ∅ sharedTargets) ["B", "A"] (∅, [])).map Prod.fst =
      .returned (Finmap.insert "B" {"A"} (Finmap.insert "A" ∅ ∅)) ∧
    (driverLoopLog 2 (mergeUniverses ∅ sharedTargets) ["B", "A"] (∅, [])).map Prod.snd =
      .returned ["A", "B", "A"] ∧
    List.count "A" ["A", "B", "A"] = 2 :=
  ⟨sharedTargets_order _ (by decide) (by simp; tauto), by decide, by decide, by decide⟩

end Kapigraph
